import Mathlib

/-!
Shallow embedding of the UMASH core (umash.c) and proofs about the
properties its specification claims.  Machine integers are modelled as
`Nat` with explicit reduction `% 2^64` wherever the C code can wrap;
byte memory is a total function `ℤ → ℕ` read through `% 256` (offsets
are integers so that reads before a block's start are representable).
-/

namespace Umash

/-- The lazy modulus 2^64 - 8 = 8 * (2^61 - 1) used by the field arithmetic. -/
def lazyMod : ℕ := 2 ^ 64 - 8

/-- The Mersenne prime modulus 2^61 - 1. -/
def modulo61 : ℕ := 2 ^ 61 - 1

/-- Truncate to a 64-bit word, as C's `uint64_t` conversions do. -/
def w64 (x : ℕ) : ℕ := x % 2 ^ 64

/-- `add_mod_fast` from umash.c: 64-bit add; on carry, add 8 to the wrapped
sum (both additions in 64-bit wrapping arithmetic). -/
def add_mod_fast (x y : ℕ) : ℕ :=
  if 2 ^ 64 ≤ x + y then ((x + y) % 2 ^ 64 + 8) % 2 ^ 64 else x + y

/-- `add_mod_slow_slow_path` from umash.c: reduce `sum` mod 2^64 - 8, add the
carried `fixup`, and reduce again.  The conditional adds of 8 wrap mod 2^64. -/
def add_mod_slow_slow_path (sum fixup : ℕ) : ℕ :=
  let s1 := if 2 ^ 64 - 8 ≤ sum then (sum + 8) % 2 ^ 64 else sum
  let s2 := (s1 + fixup) % 2 ^ 64
  if 2 ^ 64 - 8 ≤ s2 then (s2 + 8) % 2 ^ 64 else s2

/-- `add_mod_slow` from umash.c: 64-bit add with carry recorded in `fixup`;
return `sum + fixup` directly when `sum < 2^64 - 16`, else take the slow path. -/
def add_mod_slow (x y : ℕ) : ℕ :=
  let sum := (x + y) % 2 ^ 64
  let fixup := if 2 ^ 64 ≤ x + y then 8 else 0
  if sum < 2 ^ 64 - 16 then (sum + fixup) % 2 ^ 64
  else add_mod_slow_slow_path sum fixup

/-- `mul_mod_fast` from umash.c: full 128-bit product, then fold the high
half back with `add_mod_fast(low, 8 * high)`, where `8 * high` is a 64-bit
(wrapping) multiplication. -/
def mul_mod_fast (m x : ℕ) : ℕ :=
  let product := m * x
  add_mod_fast (product % 2 ^ 64) (8 * (product / 2 ^ 64) % 2 ^ 64)

/-- `horner_double_update` from umash.c. -/
def horner_double_update (acc m0 m1 x y : ℕ) : ℕ :=
  add_mod_slow (mul_mod_fast m0 (add_mod_fast acc x)) (mul_mod_fast m1 y)

/-- `finalize` from umash.c: xorshift by 27, then multiply by
0x94D049BB133111EB in 64-bit arithmetic. -/
def finalize (x : ℕ) : ℕ :=
  let x1 := x ^^^ (x >>> 27)
  (x1 * 0x94d049bb133111eb) % 2 ^ 64

-- ### Byte memory and the carry-less multiply primitive

/-- A byte of memory: the value stored at integer offset `i`, as `uint8_t`. -/
def readByte (d : ℤ → ℕ) (i : ℤ) : ℕ := d i % 256

/-- Little-endian load of `k` bytes starting at offset `i` (what the C
`memcpy` into a `uintN_t` does on a little-endian host). -/
def readLE (d : ℤ → ℕ) (i : ℤ) (k : ℕ) : ℕ :=
  (List.range k).foldr (fun j acc => acc * 256 + readByte d (i + j)) 0

/-- The 64x64 -> 128-bit carry-less (GF(2)) product computed by
`_mm_clmulepi64_si128`. -/
def clmul (a b : ℕ) : ℕ :=
  (List.range 64).foldl
    (fun acc i => if a / 2 ^ i % 2 = 1 then acc ^^^ (b * 2 ^ i) else acc) 0

/-- Modelled from the spec: `UMASH_PH_PARAM_COUNT` lives in umash.h, which is
not part of the sources; the spec fixes the PH parameter count at 32. -/
def UMASH_PH_PARAM_COUNT : ℕ := 32

/-- Modelled from the spec: `UMASH_PH_TOEPLITZ_SHIFT` lives in umash.h; the
spec fixes the Toeplitz shift at 4 words. -/
def UMASH_PH_TOEPLITZ_SHIFT : ℕ := 4

/-- `BLOCK_SIZE` from umash.c: 8 bytes per word times the PH parameter count. -/
def BLOCK_SIZE : ℕ := 8 * UMASH_PH_PARAM_COUNT

-- ### PH block compression

/-- `ph_one_block` from umash.c: fold one 256-byte block at offset `p` into a
128-bit accumulator seeded with `seed`.  Each of the 16 pairs of input words
is XORed with the matching pair of noise words and the two halves are
carry-less multiplied (imm8 = 1 selects the high half of the first operand
and the low half of the second).  The result is returned as
(low 64 bits, high 64 bits), the two `uint64_t` of `struct umash_ph`. -/
def ph_one_block (params : ℕ → ℕ) (seed : ℕ) (d : ℤ → ℕ) (p : ℤ) : ℕ × ℕ :=
  let acc := (List.range (UMASH_PH_PARAM_COUNT / 2)).foldl
    (fun acc (j : ℕ) =>
      let x0 := readLE d (p + 16 * (j : ℤ)) 8
      let x1 := readLE d (p + 16 * (j : ℤ) + 8) 8
      let k0 := w64 (params (2 * j))
      let k1 := w64 (params (2 * j + 1))
      acc ^^^ clmul (x1 ^^^ k1) (x0 ^^^ k0))
    (w64 seed)
  (acc % 2 ^ 64, acc / 2 ^ 64)

/-- `ph_last_block` from umash.c: compress a final block of `n` bytes at
offset `p`.  The leading `(n - remaining) / 8` words are processed in full
pairs as in `ph_one_block`; the trailing 16 bytes are read from offset
`n - 16` (an integer, so it can fall before `p` when `n < 16`), XORed with
the next two noise words, and combined with one carry-less multiply
(imm8 = 0 selects both low halves). -/
def ph_last_block (params : ℕ → ℕ) (seed : ℕ) (d : ℤ → ℕ) (p : ℤ) (n : ℕ) :
    ℕ × ℕ :=
  let remaining := 1 + (n - 1) % 16
  let end_full_pairs := (n - remaining) / 8
  let iters := (end_full_pairs + 1) / 2
  let acc := (List.range iters).foldl
    (fun acc (j : ℕ) =>
      let x0 := readLE d (p + 16 * (j : ℤ)) 8
      let x1 := readLE d (p + 16 * (j : ℤ) + 8) 8
      let k0 := w64 (params (2 * j))
      let k1 := w64 (params (2 * j + 1))
      acc ^^^ clmul (x1 ^^^ k1) (x0 ^^^ k0))
    (w64 seed)
  let i := 2 * iters
  let last_ptr : ℤ := p + n - 16
  let x := readLE d last_ptr 8 ^^^ w64 (params i)
  let y := readLE d (last_ptr + 8) 8 ^^^ w64 (params (i + 1))
  let acc := acc ^^^ clmul x y
  (acc % 2 ^ 64, acc / 2 ^ 64)

-- ### Short path

/-- `vec_to_u64` from umash.c: branch-minimal decode of `n <= 8` input bytes
into a 64-bit value.  For `n >= 4`, `lo` is the first 4 bytes and `hi` the
last 4 (possibly overlapping); for `n < 4`, `lo` is the first byte when `n`
is odd (else 0) and `hi` the last two bytes when bit 1 of `n` is set
(else 0).  The combination is `(hi << 32) | (lo + hi)` with the addition in
32-bit arithmetic. -/
def vec_to_u64 (d : ℤ → ℕ) (n : ℕ) : ℕ :=
  if 4 ≤ n then
    let lo := readLE d 0 4
    let hi := readLE d ((n : ℤ) - 4) 4
    (hi <<< 32) ||| ((lo + hi) % 2 ^ 32)
  else
    let lo := if n &&& 1 ≠ 0 then readByte d 0 else 0
    let hi := if n &&& 2 ≠ 0 then readLE d ((n : ℤ) - 2) 2 else 0
    (hi <<< 32) ||| ((lo + hi) % 2 ^ 32)

/-- `umash_short` from umash.c: add the length-indexed noise word to the
seed, decode the bytes, and run the SplitMix64-style mixing sequence with
the adjusted seed injected in the middle. -/
def umash_short (params : ℕ → ℕ) (seed : ℕ) (d : ℤ → ℕ) (n : ℕ) : ℕ :=
  let s := (seed + w64 (params n)) % 2 ^ 64
  let h0 := vec_to_u64 d n
  let h1 := h0 ^^^ (h0 >>> 30)
  let h2 := (h1 * 0xbf58476d1ce4e5b9) % 2 ^ 64
  let h3 := (h2 ^^^ s) ^^^ (h2 >>> 27)
  let h4 := (h3 * 0x94d049bb133111eb) % 2 ^ 64
  h4 ^^^ (h4 >>> 31)

-- ### Medium and long paths

/-- The value `umash_medium` accumulates before its final `finalize` call:
one keyed carry-less multiply of the first and last 8 bytes, XORed into
`seed XOR n`, then one Horner double update from accumulator 0. -/
def umash_medium_acc (m0 m1 : ℕ) (params : ℕ → ℕ) (seed : ℕ) (d : ℤ → ℕ)
    (n : ℕ) : ℕ :=
  let acc0 := w64 (seed ^^^ n)
  let x := readLE d 0 8 ^^^ w64 (params 0)
  let y := readLE d ((n : ℤ) - 8) 8 ^^^ w64 (params 1)
  let acc := acc0 ^^^ clmul x y
  horner_double_update 0 m0 m1 (acc % 2 ^ 64) (acc / 2 ^ 64)

/-- `umash_medium` from umash.c. -/
def umash_medium (m0 m1 : ℕ) (params : ℕ → ℕ) (seed : ℕ) (d : ℤ → ℕ)
    (n : ℕ) : ℕ :=
  finalize (umash_medium_acc m0 m1 params seed d n)

/-- The loop of `umash_long` from umash.c, up to and including the final
block's Horner update (everything before the final `finalize` call):
while more than `BLOCK_SIZE` bytes remain, compress one full block and feed
it into the polynomial; then XOR the low byte of the remaining length into
the seed, compress the last block, and feed it in. -/
def umash_long_acc (m0 m1 : ℕ) (params : ℕ → ℕ) (seed : ℕ) (d : ℤ → ℕ)
    (p : ℤ) (n : ℕ) (acc : ℕ) : ℕ :=
  if h : BLOCK_SIZE < n then
    let c := ph_one_block params seed d p
    umash_long_acc m0 m1 params seed d (p + BLOCK_SIZE) (n - BLOCK_SIZE)
      (horner_double_update acc m0 m1 c.1 c.2)
  else
    let c := ph_last_block params (seed ^^^ (n % 256)) d p n
    horner_double_update acc m0 m1 c.1 c.2
termination_by n
decreasing_by simp only [BLOCK_SIZE, UMASH_PH_PARAM_COUNT] at *; omega

/-- `umash_long` from umash.c. -/
def umash_long (m0 m1 : ℕ) (params : ℕ → ℕ) (seed : ℕ) (d : ℤ → ℕ)
    (n : ℕ) : ℕ :=
  finalize (umash_long_acc m0 m1 params seed d 0 n 0)

-- ### Key material and public dispatch

/-- `struct umash_params`: two polynomial pairs (pre-squared slot, base
slot) and the noise table `ph`.  Modelled from the spec: the struct layout
lives in umash.h; the spec sizes `ph` at 32 + 4 = 36 words, so the table is
a function whose meaningful domain is `[0, 36)`. -/
structure umash_params where
  poly0 : ℕ × ℕ
  poly1 : ℕ × ℕ
  ph : ℕ → ℕ

/-- The noise slice `&params->ph[shift]`. -/
def phSlice (p : umash_params) (shift : ℕ) : ℕ → ℕ :=
  fun i => p.ph (shift + i)

/-- `umash_full` from umash.c: normalise `which`, pick the polynomial pair
and noise slice, and dispatch on the length (`<= 8` short, `<= 16` medium,
else long). -/
def umash_full (p : umash_params) (seed : ℕ) (which : ℤ) (d : ℤ → ℕ)
    (n : ℕ) : ℕ :=
  let shift := if which = 0 then 0 else UMASH_PH_TOEPLITZ_SHIFT
  let poly := if which = 0 then p.poly0 else p.poly1
  if n ≤ 16 then
    if n ≤ 8 then umash_short (phSlice p shift) seed d n
    else umash_medium poly.1 poly.2 (phSlice p shift) seed d n
  else umash_long poly.1 poly.2 (phSlice p shift) seed d n

/-- `umash_fprint` from umash.c: the two-iteration loop unrolled; iteration
0 uses shift 0 and `poly[0]`, iteration 1 uses the Toeplitz shift and
`poly[1]`. -/
def umash_fprint (p : umash_params) (seed : ℕ) (d : ℤ → ℕ) (n : ℕ) :
    ℕ × ℕ :=
  if n ≤ 16 then
    if n ≤ 8 then
      (umash_short (phSlice p 0) seed d n,
        umash_short (phSlice p UMASH_PH_TOEPLITZ_SHIFT) seed d n)
    else
      (umash_medium p.poly0.1 p.poly0.2 (phSlice p 0) seed d n,
        umash_medium p.poly1.1 p.poly1.2 (phSlice p UMASH_PH_TOEPLITZ_SHIFT)
          seed d n)
  else
    (umash_long p.poly0.1 p.poly0.2 (phSlice p 0) seed d n,
      umash_long p.poly1.1 p.poly1.2 (phSlice p UMASH_PH_TOEPLITZ_SHIFT)
        seed d n)

-- ### C1: the finaliser of the medium and long paths

/-- The finaliser as the spec describes it (three steps: xorshift 27,
multiply, xorshift 31); written from the spec's words, for comparison with
the `finalize` embedded from the source. -/
def finalize_spec (x : ℕ) : ℕ :=
  let x1 := x ^^^ (x >>> 27)
  let x2 := (x1 * 0x94d049bb133111eb) % 2 ^ 64
  x2 ^^^ (x2 >>> 31)

-- ### C2: the value the short path binds into the hash

/-- The short path's mixing sequence with the injected per-call value `v`
abstracted out: `umash_short` is this mixer applied to the value it binds
in the middle. -/
def umash_short_mix (v : ℕ) (d : ℤ → ℕ) (n : ℕ) : ℕ :=
  let h0 := vec_to_u64 d n
  let h1 := h0 ^^^ (h0 >>> 30)
  let h2 := (h1 * 0xbf58476d1ce4e5b9) % 2 ^ 64
  let h3 := (h2 ^^^ v) ^^^ (h2 >>> 27)
  let h4 := (h3 * 0x94d049bb133111eb) % 2 ^ 64
  h4 ^^^ (h4 >>> 31)

-- ### C3: byte offsets read by ph_last_block

/-- The multiset of byte offsets (relative to the start of the block) that
`ph_last_block` loads for a final block of `n` bytes: the leading full
word pairs cover `[0, n - remaining)` and the trailing 16-byte region is
read from offset `n - 16`.  Offsets are integers, so a read before the
block's start shows up as a negative offset. -/
def ph_last_block_reads (n : ℕ) : List ℤ :=
  let remaining := 1 + (n - 1) % 16
  let end_full_pairs := (n - remaining) / 8
  let iters := (end_full_pairs + 1) / 2
  ((List.range (16 * iters)).map (fun j => (j : ℤ))) ++
    ((List.range 16).map (fun j => (n : ℤ) - 16 + j))

-- ### C9: byte offsets read by vec_to_u64

/-- The multiset of byte offsets that `vec_to_u64` loads from the input for
a length-`n` read: for `n >= 4` the two (possibly overlapping) 4-byte
loads; for `n < 4` the conditional 1-byte load at offset 0 and the
conditional 2-byte load at `n - 2` (loads taken from the `zeros` buffer
read nothing from the input). -/
def vec_to_u64_reads (n : ℕ) : List ℤ :=
  if 4 ≤ n then
    ((List.range 4).map (fun j => (j : ℤ))) ++
      ((List.range 4).map (fun j => (n : ℤ) - 4 + j))
  else
    (if n &&& 1 ≠ 0 then [(0 : ℤ)] else []) ++
      (if n &&& 2 ≠ 0 then [(n : ℤ) - 2, (n : ℤ) - 1] else [])

-- ### Parameter preparation (umash_params_prepare)

/-- The rejection-sampling loop of `umash_params_prepare` for one polynomial
multiplier: mask the candidate to its low 61 bits; accept it when it is
nonzero and below 2^61 - 1, otherwise draw the next word from the entropy
pool (`GET_RANDOM`), failing when the pool is empty. -/
def sample_f : ℕ → List ℕ → Option (ℕ × List ℕ)
  | f, buf =>
    let fm := f &&& (2 ^ 61 - 1)
    if fm ≠ 0 ∧ fm < modulo61 then some (fm, buf)
    else
      match buf with
      | [] => none
      | b :: rest => sample_f b rest

/-- The `while (value_is_repeated(...)) GET_RANDOM(...)` loop of
`umash_params_prepare`: replace `v` from the pool until it no longer occurs
among the earlier noise words `done`. -/
def fix_noise : ℕ → List ℕ → List ℕ → Option (ℕ × List ℕ)
  | v, buf, done =>
    if v ∈ done then
      match buf with
      | [] => none
      | b :: rest => fix_noise b rest done
    else some (v, buf)

/-- The noise-table pass of `umash_params_prepare`: fix each entry in order
against the (already fixed) earlier entries, threading the entropy pool. -/
def prepare_noise : List ℕ → List ℕ → List ℕ → Option (List ℕ)
  | _, done, [] => some done
  | buf, done, v :: todo =>
    match fix_noise v buf done with
    | none => none
    | some (v', buf') => prepare_noise buf' (done ++ [v']) todo

/-- `umash_params_prepare` from umash.c: the entropy pool is the two
(redundant) pre-squared slots; both polynomial multipliers are
rejection-sampled and their pre-squared slots recomputed as
`mul_mod_fast(f, f) % (2^61 - 1)`; then the noise table is de-duplicated in
order.  Failure (`return false`) is `none`. -/
def umash_params_prepare (p : umash_params) : Option umash_params :=
  let buf := [p.poly0.1, p.poly1.1]
  match sample_f p.poly0.2 buf with
  | none => none
  | some (f0, buf1) =>
    match sample_f p.poly1.2 buf1 with
    | none => none
    | some (f1, buf2) =>
      match prepare_noise buf2 []
          ((List.range (UMASH_PH_PARAM_COUNT + UMASH_PH_TOEPLITZ_SHIFT)).map
            p.ph) with
      | none => none
      | some phl =>
        some ⟨(mul_mod_fast f0 f0 % modulo61, f0),
          (mul_mod_fast f1 f1 % modulo61, f1),
          fun i => phl.getD i 0⟩

/-- The prepared-key invariants of the spec: each base multiplier lies in
the open interval (0, 2^61 - 1), each pre-squared slot is the base squared
reduced mod 2^61 - 1, and the noise words are pairwise distinct. -/
def prepared (p : umash_params) : Prop :=
  (0 < p.poly0.2 ∧ p.poly0.2 < modulo61 ∧
      p.poly0.1 = p.poly0.2 ^ 2 % modulo61) ∧
    (0 < p.poly1.2 ∧ p.poly1.2 < modulo61 ∧
      p.poly1.1 = p.poly1.2 ^ 2 % modulo61) ∧
    ∀ i < UMASH_PH_PARAM_COUNT + UMASH_PH_TOEPLITZ_SHIFT,
      ∀ j < UMASH_PH_PARAM_COUNT + UMASH_PH_TOEPLITZ_SHIFT,
        i ≠ j → p.ph i ≠ p.ph j

/-- A concrete raw key for the C4 witness: valid multipliers 3 and 5,
identity noise table. -/
def sampleKey : umash_params :=
  ⟨(0, 3), (0, 5), fun i => i⟩

/-- What `umash_params_prepare` produces on `sampleKey`. -/
def sampleKeyPrepared : umash_params :=
  ⟨(9, 3), (25, 5), fun i => (List.range 36).getD i 0⟩

instance (p : umash_params) : Decidable (prepared p) := by
  unfold prepared; infer_instance

-- ### C8: noise-table slices used by the two fingerprint halves

/-- The all-zero input buffer. -/
def zeroData : ℤ → ℕ := fun _ => 0

/-- A noise table for the C8 counterexample (everywhere distinct). -/
def noiseA : ℕ → ℕ := fun i => i + 1

/-- The same noise table with only the word at index 4 changed.  Index 4 is
read by both fingerprint halves on a 33-byte input: it is word 4 of slice 0
and word 0 of the Toeplitz slice. -/
def noiseB : ℕ → ℕ := fun i => if i = 4 then 1000 else i + 1

-- Lemmas and the claims' theorems follow.

-- ### Helper lemmas about the modular arithmetic

lemma add_mod_fast_congr (x y : ℕ) (h : x + y < 2 ^ 64 + (2 ^ 64 - 8)) :
    add_mod_fast x y % lazyMod = (x + y) % lazyMod := by
  simp only [add_mod_fast, lazyMod]
  split <;> omega

lemma mul_mod_fast_congr (m x : ℕ) (hm : m < 2 ^ 61) (hx : x < 2 ^ 64) :
    mul_mod_fast m x % lazyMod = m * x % lazyMod := by
  simp only [mul_mod_fast]
  have hdiv : m * x / 2 ^ 64 < 2 ^ 61 := by
    apply Nat.div_lt_of_lt_mul
    calc m * x ≤ (2 ^ 61 - 1) * (2 ^ 64 - 1) :=
          Nat.mul_le_mul (by omega) (by omega)
      _ < 2 ^ 64 * 2 ^ 61 := by norm_num
  have h8 : 8 * (m * x / 2 ^ 64) % 2 ^ 64 = 8 * (m * x / 2 ^ 64) :=
    Nat.mod_eq_of_lt (by omega)
  rw [h8]
  have hfold := Nat.div_add_mod (m * x) (2 ^ 64)
  rw [add_mod_fast_congr _ _ (by omega)]
  have hdecomp : m * x = (m * x % 2 ^ 64 + 8 * (m * x / 2 ^ 64)) +
      lazyMod * (m * x / 2 ^ 64) := by
    unfold lazyMod; omega
  conv_rhs => rw [hdecomp]
  rw [Nat.add_mul_mod_self_left]

/-- C6: for all 64-bit `x` and `y`, `add_mod_slow x y` is congruent to
`x + y` modulo 2^64 - 8 and its result is strictly below 2^64 - 8,
including the narrow range where the uncorrected sum lies in
[2^64 - 16, 2^64 - 1] and the slow fix-up path runs. -/
theorem add_mod_slow_correct (x y : ℕ) (hx : x < 2 ^ 64) (hy : y < 2 ^ 64) :
    add_mod_slow x y % lazyMod = (x + y) % lazyMod ∧
      add_mod_slow x y < lazyMod := by
  simp only [add_mod_slow, add_mod_slow_slow_path, lazyMod]
  split_ifs <;> omega

/-- Witness for C6 at `x = y = 2^64 - 8`: the uncorrected sum is
2^64 - 16, so the slow fix-up path runs. -/
theorem add_mod_slow_correct_witness :
    (2 ^ 64 - 8 : ℕ) < 2 ^ 64 ∧
      (add_mod_slow (2 ^ 64 - 8) (2 ^ 64 - 8) % lazyMod =
          ((2 ^ 64 - 8) + (2 ^ 64 - 8)) % lazyMod ∧
        add_mod_slow (2 ^ 64 - 8) (2 ^ 64 - 8) < lazyMod) :=
  ⟨by norm_num,
    add_mod_slow_correct (2 ^ 64 - 8) (2 ^ 64 - 8) (by norm_num) (by norm_num)⟩

/-- C7 counterexample: at `m = x = 2^63`, `mul_mod_fast` is not congruent to
the full product `2^126` modulo 2^64 - 8 (it returns 0, the product's
residue is 16): the claim quantified over all 64-bit `m` fails. -/
theorem mul_mod_fast_not_congr_at_pow63 :
    (2 ^ 63 : ℕ) < 2 ^ 64 ∧
      mul_mod_fast (2 ^ 63) (2 ^ 63) % lazyMod ≠ (2 ^ 63 * 2 ^ 63) % lazyMod := by
  constructor
  · norm_num
  · decide

/-- C7 (amended): for every `m < 2^61` (the range of the polynomial
multipliers) and 64-bit `x`, `mul_mod_fast m x` is congruent to the full
integer product `m * x` modulo 2^64 - 8. -/
theorem mul_mod_fast_correct (m x : ℕ) (hm : m < 2 ^ 61) (hx : x < 2 ^ 64) :
    mul_mod_fast m x % lazyMod = m * x % lazyMod :=
  mul_mod_fast_congr m x hm hx

/-- Witness for C7 (amended) at `m = 3`, `x = 5`. -/
theorem mul_mod_fast_correct_witness :
    (3 : ℕ) < 2 ^ 61 ∧ (5 : ℕ) < 2 ^ 64 ∧
      mul_mod_fast 3 5 % lazyMod = 3 * 5 % lazyMod :=
  ⟨by norm_num, by norm_num, mul_mod_fast_correct 3 5 (by norm_num) (by norm_num)⟩

/-- C1 counterexample: on a concrete 9-byte medium-path input, the digest
differs from applying the spec's three-step finaliser to the path's
pre-final accumulator, so the finaliser does not perform the claimed final
xorshift by 31. -/
theorem finalize_missing_xorshift31 :
    umash_medium 1 1 (fun _ => 0) 0 (fun _ => 0) 9 ≠
      finalize_spec (umash_medium_acc 1 1 (fun _ => 0) 0 (fun _ => 0) 9) := by
  decide

/-- C1 (amended): the finaliser applied by the medium and long paths before
returning computes `x ← x XOR (x >> 27)` then `x ← x * 0x94D049BB133111EB`
(mod 2^64) and returns that result — two steps, with no final xorshift by
31 — and both paths return exactly that finaliser applied to their
polynomial accumulator. -/
theorem finalize_two_steps :
    (∀ x, finalize x = ((x ^^^ (x >>> 27)) * 0x94d049bb133111eb) % 2 ^ 64) ∧
      (∀ m0 m1 params seed d n,
        umash_medium m0 m1 params seed d n =
          finalize (umash_medium_acc m0 m1 params seed d n)) ∧
      (∀ m0 m1 params seed d n,
        umash_long m0 m1 params seed d n =
          finalize (umash_long_acc m0 m1 params seed d 0 n 0)) :=
  ⟨fun _ => rfl, fun _ _ _ _ _ _ => rfl, fun _ _ _ _ _ _ => rfl⟩

/-- C2 counterexample: with noise word 1 at index 0 and seed 1, the short
path's digest for the empty input differs from the mixer fed with
`seed XOR noise[n]`: the injected value is not the XOR of seed and noise. -/
theorem umash_short_not_xor_inject :
    umash_short (fun _ => 1) 1 (fun _ => 0) 0 ≠
      umash_short_mix ((1 : ℕ) ^^^ w64 1) (fun _ => 0) 0 := by
  decide

/-- C2 (amended): for every input length `n ∈ [0, 8]`, key, seed, and input
bytes, the short path's mixer injects the 64-bit sum `seed + noise[n]`
(addition mod 2^64, not XOR) of the seed and the length-indexed noise word
in the middle of the mixing sequence. -/
theorem umash_short_injects_sum (params : ℕ → ℕ) (seed : ℕ) (d : ℤ → ℕ)
    (n : ℕ) (h : n ≤ 8) :
    umash_short params seed d n =
      umash_short_mix ((seed + w64 (params n)) % 2 ^ 64) d n :=
  rfl

/-- Witness for C2 (amended) at `n = 3`, seed 7, the identity noise table. -/
theorem umash_short_injects_sum_witness :
    (3 : ℕ) ≤ 8 ∧
      umash_short (fun i => i) 7 (fun _ => 0) 3 =
        umash_short_mix ((7 + w64 3) % 2 ^ 64) (fun _ => 0) 3 :=
  ⟨by decide, umash_short_injects_sum (fun i => i) 7 (fun _ => 0) 3 (by decide)⟩

/-- C3 counterexample: for a 1-byte final block the trailing 16-byte region
is read from offset `1 - 16 = -15`, i.e. before offset 0 of the block, so
the claim that every loaded offset lies within `[0, n)` fails at `n = 1`. -/
theorem ph_last_block_reads_before_block :
    (1 : ℕ) ≤ 1 ∧ (1 : ℕ) ≤ 256 ∧
      (-15 : ℤ) ∈ ph_last_block_reads 1 ∧ (-15 : ℤ) < 0 := by
  decide

/-- C3 (amended): for every byte count `n ∈ [16, 256]`, the last-block PH
variant reads only bytes `[0, n)` of the block — both the leading full
word pairs and the trailing 16-byte region read from offset `n - 16` stay
in bounds.  (For `n < 16` the trailing read starts before the block; in
the long path those bytes belong to the preceding block of the same
input.) -/
theorem ph_last_block_reads_in_bounds (n : ℕ) (h16 : 16 ≤ n)
    (h256 : n ≤ 256) :
    ∀ o ∈ ph_last_block_reads n, 0 ≤ o ∧ o < (n : ℤ) := by
  intro o ho
  simp [ph_last_block_reads] at ho
  have hdm := Nat.div_add_mod (n - 1) 16
  rcases ho with ⟨j, hj, rfl⟩ | ⟨j, hj, rfl⟩ <;> constructor <;> omega

/-- Witness for C3 (amended) at `n = 17`. -/
theorem ph_last_block_reads_in_bounds_witness :
    (16 : ℕ) ≤ 17 ∧ (17 : ℕ) ≤ 256 ∧
      ∀ o ∈ ph_last_block_reads 17, 0 ≤ o ∧ o < (17 : ℤ) :=
  ⟨by decide, by decide,
    ph_last_block_reads_in_bounds 17 (by decide) (by decide)⟩

/-- C9: for every input length `n ∈ [0, 8]`, the short path's byte decoder
reads only offsets in `[0, n)` — never past the end nor before the start —
and for `n ∈ {0, 1, 2, 3}` it reads each present input byte exactly once. -/
theorem vec_to_u64_reads_safe (n : ℕ) (h : n ≤ 8) :
    (∀ o ∈ vec_to_u64_reads n, 0 ≤ o ∧ o < (n : ℤ)) ∧
      (n ≤ 3 → ∀ k : ℕ, k < n → (vec_to_u64_reads n).count (k : ℤ) = 1) := by
  interval_cases n <;> decide

/-- Witness for C9 at `n = 3`. -/
theorem vec_to_u64_reads_safe_witness :
    (3 : ℕ) ≤ 8 ∧
      ((∀ o ∈ vec_to_u64_reads 3, 0 ≤ o ∧ o < (3 : ℤ)) ∧
        (3 ≤ 3 → ∀ k : ℕ, k < 3 → (vec_to_u64_reads 3).count (k : ℤ) = 1)) :=
  ⟨by decide, vec_to_u64_reads_safe 3 (by decide)⟩

-- ### C5: the fingerprint is the ordered pair of single hashes

/-- C5: for every key, seed, input and length, the fingerprint equals the
ordered pair of single hashes with `which = 0` and `which = 1`. -/
theorem umash_fprint_eq_pair (p : umash_params) (seed : ℕ) (d : ℤ → ℕ)
    (n : ℕ) :
    umash_fprint p seed d n =
      (umash_full p seed 0 d n, umash_full p seed 1 d n) := by
  simp only [umash_fprint, umash_full]
  norm_num
  split_ifs <;> rfl

lemma sample_f_sound :
    ∀ (buf : List ℕ) (f fm : ℕ) (buf' : List ℕ),
      sample_f f buf = some (fm, buf') → fm ≠ 0 ∧ fm < modulo61 := by
  intro buf
  induction buf with
  | nil =>
    intro f fm buf' h
    simp only [sample_f] at h
    split at h
    · rename_i hc
      simp only [Option.some.injEq, Prod.mk.injEq] at h
      obtain ⟨h1, -⟩ := h
      subst h1
      exact hc
    · simp at h
  | cons b rest ih =>
    intro f fm buf' h
    simp only [sample_f] at h
    split at h
    · rename_i hc
      simp only [Option.some.injEq, Prod.mk.injEq] at h
      obtain ⟨h1, -⟩ := h
      subst h1
      exact hc
    · exact ih b fm buf' h

lemma fix_noise_sound :
    ∀ (buf : List ℕ) (v v' : ℕ) (buf' done : List ℕ),
      fix_noise v buf done = some (v', buf') → v' ∉ done := by
  intro buf
  induction buf with
  | nil =>
    intro v v' buf' done h
    simp only [fix_noise] at h
    split at h
    · simp at h
    · rename_i hc
      simp only [Option.some.injEq, Prod.mk.injEq] at h
      obtain ⟨h1, -⟩ := h
      subst h1
      exact hc
  | cons b rest ih =>
    intro v v' buf' done h
    simp only [fix_noise] at h
    split at h
    · exact ih b v' buf' done h
    · rename_i hc
      simp only [Option.some.injEq, Prod.mk.injEq] at h
      obtain ⟨h1, -⟩ := h
      subst h1
      exact hc

lemma prepare_noise_sound :
    ∀ (todo buf done out : List ℕ), done.Nodup →
      prepare_noise buf done todo = some out →
      out.Nodup ∧ out.length = done.length + todo.length := by
  intro todo
  induction todo with
  | nil =>
    intro buf done out hnd h
    simp only [prepare_noise, Option.some.injEq] at h
    subst h
    simpa using hnd
  | cons v todo ih =>
    intro buf done out hnd h
    simp only [prepare_noise] at h
    cases hfix : fix_noise v buf done with
    | none => rw [hfix] at h; simp at h
    | some pair =>
      obtain ⟨v', buf'⟩ := pair
      rw [hfix] at h
      have hnotin := fix_noise_sound buf v v' buf' done hfix
      have hnd' : (done ++ [v']).Nodup := by
        simp [List.nodup_append, hnd, hnotin]
      have := ih buf' (done ++ [v']) out hnd' h
      simpa [Nat.add_assoc, Nat.add_comm 1] using this

lemma mul_mod_fast_sq (f : ℕ) (hf : f < 2 ^ 61) :
    mul_mod_fast f f % modulo61 = f ^ 2 % modulo61 := by
  have h := mul_mod_fast_congr f f hf (by omega)
  have hdvd : modulo61 ∣ lazyMod := ⟨8, by norm_num [modulo61, lazyMod]⟩
  calc mul_mod_fast f f % modulo61
      = mul_mod_fast f f % lazyMod % modulo61 :=
        (Nat.mod_mod_of_dvd _ hdvd).symm
    _ = f * f % lazyMod % modulo61 := by rw [h]
    _ = f * f % modulo61 := Nat.mod_mod_of_dvd _ hdvd
    _ = f ^ 2 % modulo61 := by rw [sq]

/-- C4: whenever `umash_params_prepare` succeeds, the resulting key
satisfies the prepared-key invariants: both base multipliers lie strictly
between 0 and 2^61 - 1, both pre-squared slots equal the base squared
reduced mod 2^61 - 1, and the 36 noise words are pairwise distinct. -/
theorem prepare_establishes_invariants (p p' : umash_params)
    (h : umash_params_prepare p = some p') : prepared p' := by
  simp only [umash_params_prepare] at h
  cases h0 : sample_f p.poly0.2 [p.poly0.1, p.poly1.1] with
  | none => simp only [h0] at h; exact Option.noConfusion h
  | some pair0 =>
    obtain ⟨f0, buf1⟩ := pair0
    simp only [h0] at h
    cases h1 : sample_f p.poly1.2 buf1 with
    | none => simp only [h1] at h; exact Option.noConfusion h
    | some pair1 =>
      obtain ⟨f1, buf2⟩ := pair1
      simp only [h1] at h
      cases h2 : prepare_noise buf2 []
          ((List.range (UMASH_PH_PARAM_COUNT + UMASH_PH_TOEPLITZ_SHIFT)).map
            p.ph) with
      | none => simp only [h2] at h; exact Option.noConfusion h
      | some phl =>
        simp only [h2, Option.some.injEq] at h
        subst h
        obtain ⟨hf0ne, hf0lt⟩ := sample_f_sound _ _ _ _ h0
        obtain ⟨hf1ne, hf1lt⟩ := sample_f_sound _ _ _ _ h1
        have hm61 : modulo61 < 2 ^ 61 := by unfold modulo61; norm_num
        obtain ⟨hnd, hlen⟩ := prepare_noise_sound _ _ _ _ List.nodup_nil h2
        have hlen36 : phl.length = 36 := by
          simpa [UMASH_PH_PARAM_COUNT, UMASH_PH_TOEPLITZ_SHIFT] using hlen
        refine ⟨⟨Nat.pos_of_ne_zero hf0ne, hf0lt, ?_⟩,
          ⟨Nat.pos_of_ne_zero hf1ne, hf1lt, ?_⟩, ?_⟩
        · exact mul_mod_fast_sq f0 (by omega)
        · exact mul_mod_fast_sq f1 (by omega)
        · intro i hi j hj hij
          simp only [UMASH_PH_PARAM_COUNT, UMASH_PH_TOEPLITZ_SHIFT] at hi hj
          simp only
          rw [List.getD_eq_getElem _ _ (by omega),
            List.getD_eq_getElem _ _ (by omega)]
          intro heq
          exact hij (hnd.getElem_inj_iff.mp heq)

/-- Witness for C4: preparing `sampleKey` succeeds and the result satisfies
the invariants. -/
theorem prepare_establishes_invariants_witness :
    umash_params_prepare sampleKey = some sampleKeyPrepared ∧
      prepared sampleKeyPrepared :=
  ⟨rfl, prepare_establishes_invariants sampleKey sampleKeyPrepared rfl⟩

set_option maxRecDepth 2000 in
/-- C8 counterexample: for the concrete prepared keys built from `noiseA`
and `noiseB` (which differ only at noise index 4) and the 33-byte all-zero
input, both fingerprint halves change, so no pair of disjoint noise-index
sets can exist on which the two halves separately depend: the slices at
offsets 0 and 4 overlap on the long path. -/
theorem fprint_noise_slices_overlap :
    prepared ⟨(9, 3), (25, 5), noiseA⟩ ∧ prepared ⟨(9, 3), (25, 5), noiseB⟩ ∧
      ¬ ∃ S0 S1 : Set ℕ,
          (∀ i, ¬ (i ∈ S0 ∧ i ∈ S1)) ∧
          (∀ g g', prepared ⟨(9, 3), (25, 5), g⟩ →
            prepared ⟨(9, 3), (25, 5), g'⟩ → (∀ i ∈ S0, g i = g' i) →
            (umash_fprint ⟨(9, 3), (25, 5), g⟩ 0 zeroData 33).1 =
              (umash_fprint ⟨(9, 3), (25, 5), g'⟩ 0 zeroData 33).1) ∧
          (∀ g g', prepared ⟨(9, 3), (25, 5), g⟩ →
            prepared ⟨(9, 3), (25, 5), g'⟩ → (∀ i ∈ S1, g i = g' i) →
            (umash_fprint ⟨(9, 3), (25, 5), g⟩ 0 zeroData 33).2 =
              (umash_fprint ⟨(9, 3), (25, 5), g'⟩ 0 zeroData 33).2) := by
  refine ⟨by decide, by decide, ?_⟩
  rintro ⟨S0, S1, hdisj, h0, h1⟩
  have hprepA : prepared ⟨(9, 3), (25, 5), noiseA⟩ := by decide
  have hprepB : prepared ⟨(9, 3), (25, 5), noiseB⟩ := by decide
  have pA0 : ph_last_block (phSlice ⟨(9, 3), (25, 5), noiseA⟩ 0) 33
      zeroData 0 33 = (49, 0) := by decide
  have pB0 : ph_last_block (phSlice ⟨(9, 3), (25, 5), noiseB⟩ 0) 33
      zeroData 0 33 = (2143, 0) := by decide
  have pA1 : ph_last_block (phSlice ⟨(9, 3), (25, 5), noiseA⟩ 4) 33
      zeroData 0 33 = (93, 0) := by decide
  have pB1 : ph_last_block (phSlice ⟨(9, 3), (25, 5), noiseB⟩ 4) 33
      zeroData 0 33 = (2099, 0) := by decide
  have hne0 : (umash_fprint ⟨(9, 3), (25, 5), noiseA⟩ 0 zeroData 33).1 ≠
      (umash_fprint ⟨(9, 3), (25, 5), noiseB⟩ 0 zeroData 33).1 := by
    simp only [umash_fprint, umash_long]
    norm_num
    rw [umash_long_acc]
    norm_num [BLOCK_SIZE, UMASH_PH_PARAM_COUNT]
    rw [umash_long_acc]
    norm_num [BLOCK_SIZE, UMASH_PH_PARAM_COUNT, UMASH_PH_TOEPLITZ_SHIFT,
      pA0, pB0]
    decide
  have hne1 : (umash_fprint ⟨(9, 3), (25, 5), noiseA⟩ 0 zeroData 33).2 ≠
      (umash_fprint ⟨(9, 3), (25, 5), noiseB⟩ 0 zeroData 33).2 := by
    simp only [umash_fprint, umash_long]
    norm_num
    rw [umash_long_acc]
    norm_num [BLOCK_SIZE, UMASH_PH_PARAM_COUNT]
    rw [umash_long_acc]
    norm_num [BLOCK_SIZE, UMASH_PH_PARAM_COUNT, UMASH_PH_TOEPLITZ_SHIFT,
      pA1, pB1]
    decide
  by_cases h4 : 4 ∈ S0
  · have h4' : 4 ∉ S1 := fun hm => hdisj 4 ⟨h4, hm⟩
    refine hne1 (h1 noiseA noiseB hprepA hprepB ?_)
    intro i hi
    have hi4 : i ≠ 4 := fun he => h4' (he ▸ hi)
    simp [noiseA, noiseB, hi4]
  · refine hne0 (h0 noiseA noiseB hprepA hprepB ?_)
    intro i hi
    have hi4 : i ≠ 4 := fun he => h4 (he ▸ hi)
    simp [noiseA, noiseB, hi4]

/-- The long path on a final block of at most 256 bytes: the while loop
does not run, so the digest is one Horner update of the last-block
compression, finalised. -/
lemma umash_long_small (m0 m1 : ℕ) (params : ℕ → ℕ) (seed : ℕ) (d : ℤ → ℕ)
    (n : ℕ) (hn : n ≤ BLOCK_SIZE) :
    umash_long m0 m1 params seed d n =
      finalize (horner_double_update 0 m0 m1
        (ph_last_block params (seed ^^^ n % 256) d 0 n).1
        (ph_last_block params (seed ^^^ n % 256) d 0 n).2) := by
  rw [umash_long, umash_long_acc, dif_neg (Nat.not_lt.mpr hn)]

/-- `ph_last_block` reads only the noise words it loads: indices
`0 .. 2 * iters + 1` where `iters` is the number of full word pairs. -/
lemma ph_last_block_congr (params params' : ℕ → ℕ) (seed : ℕ) (d : ℤ → ℕ)
    (p : ℤ) (n : ℕ)
    (h : ∀ i < 2 * (((n - (1 + (n - 1) % 16)) / 8 + 1) / 2) + 2,
      params i = params' i) :
    ph_last_block params seed d p n = ph_last_block params' seed d p n := by
  simp only [ph_last_block]
  have hacc : ∀ acc : ℕ,
      ∀ j ∈ List.range ((((n - (1 + (n - 1) % 16)) / 8 + 1) / 2)),
      (fun acc (j : ℕ) =>
        acc ^^^
          clmul (readLE d (p + 16 * (j : ℤ) + 8) 8 ^^^ w64 (params (2 * j + 1)))
            (readLE d (p + 16 * (j : ℤ)) 8 ^^^ w64 (params (2 * j)))) acc j =
      (fun acc (j : ℕ) =>
        acc ^^^
          clmul (readLE d (p + 16 * (j : ℤ) + 8) 8 ^^^ w64 (params' (2 * j + 1)))
            (readLE d (p + 16 * (j : ℤ)) 8 ^^^ w64 (params' (2 * j)))) acc j := by
    intro acc j hj
    rw [List.mem_range] at hj
    simp only
    rw [h (2 * j) (by omega), h (2 * j + 1) (by omega)]
  rw [List.foldl_ext _ _ _ hacc,
    h (2 * (((n - (1 + (n - 1) % 16)) / 8 + 1) / 2)) (by omega),
    h (2 * (((n - (1 + (n - 1) % 16)) / 8 + 1) / 2) + 1) (by omega)]

/-- C8 (amended): for every input length `n ≤ 32`, the two fingerprint
halves depend on disjoint sets of noise-table indices, drawn from the
slices at offset 0 and at the Toeplitz offset: for `n ≤ 8` the sets are
`{n}` and `{4 + n}`; for `9 ≤ n ≤ 16`, `{0, 1}` and `{4, 5}`; for
`17 ≤ n ≤ 32` (a long-path final block of at most two word pairs),
`{0, 1, 2, 3}` and `{4, 5, 6, 7}`.  From `n = 33` on the final block
reaches past word 3 of its slice, the two slices share indices both halves
depend on, and the disjointness fails, as the counterexample shows. -/
theorem fprint_noise_disjoint_upto32 (q0 q1 : ℕ × ℕ) (seed : ℕ)
    (d : ℤ → ℕ) (n : ℕ) (hn : n ≤ 32) :
    ∃ S0 S1 : Set ℕ,
      (∀ i, ¬ (i ∈ S0 ∧ i ∈ S1)) ∧
      (∀ g g', (∀ i ∈ S0, g i = g' i) →
        (umash_fprint ⟨q0, q1, g⟩ seed d n).1 =
          (umash_fprint ⟨q0, q1, g'⟩ seed d n).1) ∧
      (∀ g g', (∀ i ∈ S1, g i = g' i) →
        (umash_fprint ⟨q0, q1, g⟩ seed d n).2 =
          (umash_fprint ⟨q0, q1, g'⟩ seed d n).2) := by
  by_cases h16 : n ≤ 16
  · by_cases h8 : n ≤ 8
    · refine ⟨{n}, {4 + n}, ?_, ?_, ?_⟩
      · intro i ⟨hi0, hi1⟩
        simp only [Set.mem_singleton_iff] at hi0 hi1
        omega
      · intro g g' hg
        have hgn : g n = g' n := hg n rfl
        simp [umash_fprint, h16, h8, umash_short, phSlice, hgn]
      · intro g g' hg
        have hgn : g (4 + n) = g' (4 + n) := hg (4 + n) rfl
        simp [umash_fprint, h16, h8, umash_short, phSlice,
          UMASH_PH_TOEPLITZ_SHIFT, hgn]
    · refine ⟨{0, 1}, {4, 5}, ?_, ?_, ?_⟩
      · intro i ⟨hi0, hi1⟩
        simp only [Set.mem_insert_iff, Set.mem_singleton_iff] at hi0 hi1
        omega
      · intro g g' hg
        have hg0 : g 0 = g' 0 := hg 0 (by simp)
        have hg1 : g 1 = g' 1 := hg 1 (by simp)
        simp [umash_fprint, h16, h8, umash_medium, umash_medium_acc, phSlice,
          hg0, hg1]
      · intro g g' hg
        have hg4 : g 4 = g' 4 := hg 4 (by simp)
        have hg5 : g 5 = g' 5 := hg 5 (by simp)
        simp [umash_fprint, h16, h8, umash_medium, umash_medium_acc, phSlice,
          UMASH_PH_TOEPLITZ_SHIFT, hg4, hg5]
  · have hBS : n ≤ BLOCK_SIZE := by
      simp only [BLOCK_SIZE, UMASH_PH_PARAM_COUNT]; omega
    have hb : 2 * (((n - (1 + (n - 1) % 16)) / 8 + 1) / 2) + 2 = 4 := by omega
    refine ⟨{0, 1, 2, 3}, {4, 5, 6, 7}, ?_, ?_, ?_⟩
    · intro i ⟨hi0, hi1⟩
      simp only [Set.mem_insert_iff, Set.mem_singleton_iff] at hi0 hi1
      omega
    · intro g g' hg
      simp only [umash_fprint, h16, if_false]
      rw [umash_long_small _ _ _ _ _ _ hBS, umash_long_small _ _ _ _ _ _ hBS]
      rw [ph_last_block_congr (phSlice ⟨q0, q1, g⟩ 0) (phSlice ⟨q0, q1, g'⟩ 0)
        (seed ^^^ n % 256) d 0 n ?_]
      intro i hi
      rw [hb] at hi
      show g (0 + i) = g' (0 + i)
      refine hg (0 + i) ?_
      simp only [Set.mem_insert_iff, Set.mem_singleton_iff]
      omega
    · intro g g' hg
      simp only [umash_fprint, h16, if_false]
      rw [umash_long_small _ _ _ _ _ _ hBS, umash_long_small _ _ _ _ _ _ hBS]
      rw [ph_last_block_congr (phSlice ⟨q0, q1, g⟩ UMASH_PH_TOEPLITZ_SHIFT)
        (phSlice ⟨q0, q1, g'⟩ UMASH_PH_TOEPLITZ_SHIFT)
        (seed ^^^ n % 256) d 0 n ?_]
      intro i hi
      rw [hb] at hi
      show g (UMASH_PH_TOEPLITZ_SHIFT + i) = g' (UMASH_PH_TOEPLITZ_SHIFT + i)
      refine hg (UMASH_PH_TOEPLITZ_SHIFT + i) ?_
      simp only [Set.mem_insert_iff, Set.mem_singleton_iff,
        UMASH_PH_TOEPLITZ_SHIFT]
      omega

/-- Witness for C8 (amended) at `n = 20`, a long-path input whose final
block still touches only noise words 0..3 of each slice. -/
theorem fprint_noise_disjoint_upto32_witness :
    (20 : ℕ) ≤ 32 ∧
      ∃ S0 S1 : Set ℕ,
        (∀ i, ¬ (i ∈ S0 ∧ i ∈ S1)) ∧
        (∀ g g', (∀ i ∈ S0, g i = g' i) →
          (umash_fprint ⟨(9, 3), (25, 5), g⟩ 0 zeroData 20).1 =
            (umash_fprint ⟨(9, 3), (25, 5), g'⟩ 0 zeroData 20).1) ∧
        (∀ g g', (∀ i ∈ S1, g i = g' i) →
          (umash_fprint ⟨(9, 3), (25, 5), g⟩ 0 zeroData 20).2 =
            (umash_fprint ⟨(9, 3), (25, 5), g'⟩ 0 zeroData 20).2) :=
  ⟨by decide,
    fprint_noise_disjoint_upto32 (9, 3) (25, 5) 0 zeroData 20 (by decide)⟩

/-- C10: for input lengths at most 8, the digest does not depend on the
polynomial key material — two prepared keys with identical noise tables
hash identically for every seed, `which`, and input — and `which` enters
only through the noise slice: the digest is the short-path mixer fed with
`seed + noise[shift + n]` where the shift is 0 for `which = 0` and the
Toeplitz shift otherwise. -/
theorem short_hash_poly_independent (p q : umash_params) (seed : ℕ)
    (which : ℤ) (d : ℤ → ℕ) (n : ℕ) (hn : n ≤ 8) (hp : prepared p)
    (hq : prepared q) (hph : ∀ i < 36, p.ph i = q.ph i) :
    umash_full p seed which d n = umash_full q seed which d n ∧
      umash_full p seed which d n =
        umash_short_mix
          ((seed +
            w64 (p.ph
              ((if which = 0 then 0 else UMASH_PH_TOEPLITZ_SHIFT) + n))) %
            2 ^ 64) d n := by
  have h16 : n ≤ 16 := by omega
  have key : p.ph ((if which = 0 then 0 else UMASH_PH_TOEPLITZ_SHIFT) + n) =
      q.ph ((if which = 0 then 0 else UMASH_PH_TOEPLITZ_SHIFT) + n) := by
    refine hph _ ?_
    split <;> simp [UMASH_PH_TOEPLITZ_SHIFT] <;> omega
  constructor
  · by_cases hw : which = 0 <;> simp [hw] at key <;>
      simp [umash_full, umash_short, phSlice, hn, h16, hw, key]
  · by_cases hw : which = 0 <;>
      simp [umash_full, umash_short, umash_short_mix, phSlice, hn, h16, hw]

/-- Witness for C10 at `n = 5`, `which = 1`, the prepared sample key. -/
theorem short_hash_poly_independent_witness :
    (5 : ℕ) ≤ 8 ∧ prepared sampleKeyPrepared ∧
      (umash_full sampleKeyPrepared 0 1 zeroData 5 =
          umash_full sampleKeyPrepared 0 1 zeroData 5 ∧
        umash_full sampleKeyPrepared 0 1 zeroData 5 =
          umash_short_mix
            ((0 +
              w64 (sampleKeyPrepared.ph
                ((if (1 : ℤ) = 0 then 0 else UMASH_PH_TOEPLITZ_SHIFT) + 5))) %
              2 ^ 64) zeroData 5) :=
  ⟨by decide, by decide,
    short_hash_poly_independent sampleKeyPrepared sampleKeyPrepared 0 1
      zeroData 5 (by decide) (by decide) (by decide) (fun i _ => rfl)⟩

end Umash
